import Mathlib

/-!
Verification of the NilsRPG streaming/turn-state core against its
natural-language specification.

The definitions below are a shallow embedding of the relevant parts of the
source:

* `processChunk` / `feedExt` — the incremental `"current_situation"` field
  extractor inside `RPGGame._call_api` (src/NilsRPG.py, lines 746-833):
  rolling buffer, key search with `buf[-len(key):]` truncation, the
  colon-quote regex search, the character scan with an escaping flag, the
  per-chunk flush of undecoded characters, and the JSON decoding of the
  final fragment with a raw fallback.
* `onSubmit` / `applyResponse` / `applyFailure` — the turn state machine of
  `RPGGame._on_submit`, `_call_api` and `_update_remaining_state`.
* `processImageResponse` / `imageWorker` / `progressTick` — the image
  generation worker of `RPGGame._start_image_generation`.
* `saveGame` / `loadGame` — `RPGGame._save_game` and
  `RPGGame._load_game_from_path`.
* `cleanVal` — `clean_unicode` from src/utils.py.

Text is modelled as `List Char`.  Python byte strings appear only as opaque
payloads (`List Nat`).  The float `weight` field of inventory items is only
ever copied, never computed with, and is modelled as `Rat`.
-/

namespace NilsRPG

/-! ## The streaming field extractor (src/NilsRPG.py lines 746-833) -/

/-- The literal key searched for in the stream: `"current_situation"`
(including the surrounding double quotes), line 755. -/
def situationKey : List Char := "\"current_situation\"".data

/-- Python `buf[-n:]`: the last `n` characters of `l` (all of `l` when it is
shorter), used by line 782 to keep a split key matchable. -/
def lastN (n : Nat) (l : List Char) : List Char := l.drop (l.length - n)

/-- Python `buf.find(pat)` (line 779): index of the first occurrence of
`pat` in `l`, `none` when absent. -/
def firstOcc (pat : List Char) : List Char → Option Nat
  | [] => if pat = [] then some 0 else none
  | c :: rest =>
    if pat.isPrefixOf (c :: rest) then some 0
    else (firstOcc pat rest).map (· + 1)

/-- Whitespace characters matched by the `\s` class of the pattern
on line 788.  (The extractor's input has already passed `clean_unicode`,
which strips every category-C character, so of these only the plain space
can actually reach the search; the larger set keeps the model close to the
regex engine.) -/
def pyWs (c : Char) : Bool :=
  c = ' ' ∨ c = '\t' ∨ c = '\n' ∨ c = '\r' ∨ c = '\x0b' ∨ c = '\x0c' ∨ c = ' '

/-- Match of the pattern `\s*:\s*"` anchored at the head of `l`; returns the
number of characters consumed.  Both `\s*` are effectively possessive here
because neither `:` nor `"` is a whitespace character. -/
def matchColonQuoteAt (l : List Char) : Option Nat :=
  let l1 := l.dropWhile pyWs
  match l1 with
  | ':' :: r =>
    let r1 := r.dropWhile pyWs
    match r1 with
    | '"' :: _ => some (l.length - l1.length + 1 + (r.length - r1.length) + 1)
    | _ => none
  | _ => none

/-- `re.search(r'\s*:\s*"', buf)` of line 788, returning `m.end()`: the end
position of the leftmost match. -/
def findColonQuote : List Char → Option Nat
  | [] => none
  | c :: rest =>
    match matchColonQuoteAt (c :: rest) with
    | some n => some n
    | none => (findColonQuote rest).map (· + 1)

/-- Result of the character-by-character scan of lines 797-825. -/
structure ScanRes where
  out : List Char
  esc : Bool
  rest : Option (List Char)
deriving DecidableEq, Repr

/-- The while-loop of lines 799-825: walk the buffer, a backslash sets the
escaping flag (and is kept in the output for later JSON decoding), an
escaped character is emitted literally, an unescaped `"` stops the scan and
returns the remaining buffer. -/
def scanVal (esc : Bool) : List Char → ScanRes
  | [] => ⟨[], esc, none⟩
  | c :: cs =>
    if esc then
      let r := scanVal false cs
      ⟨c :: r.out, r.esc, r.rest⟩
    else if c = '\\' then
      let r := scanVal true cs
      ⟨c :: r.out, r.esc, r.rest⟩
    else if c = '"' then ⟨[], esc, some cs⟩
    else
      let r := scanVal false cs
      ⟨c :: r.out, r.esc, r.rest⟩

/-- Hexadecimal digit value, as used by `json.loads` for `\uXXXX`. -/
def hexVal (c : Char) : Option Nat :=
  if '0' ≤ c ∧ c ≤ '9' then some (c.toNat - '0'.toNat)
  else if 'a' ≤ c ∧ c ≤ 'f' then some (c.toNat - 'a'.toNat + 10)
  else if 'A' ≤ c ∧ c ≤ 'F' then some (c.toNat - 'A'.toNat + 10)
  else none

mutual

/-- Decoding of a JSON string body, modelling `json.loads('"'+raw+'"')` on
line 814: standard escapes, `\uXXXX` with surrogate pairs, failure (`none`)
on invalid escapes, unescaped quotes and raw control characters. -/
def decodeJsonChars : List Char → Option (List Char)
  | [] => some []
  | c :: rest =>
    if c = '\\' then decodeEscape rest
    else if c = '"' ∨ c.toNat < 0x20 then none
    else (decodeJsonChars rest).map (fun l => c :: l)

/-- The escape-sequence part of `decodeJsonChars`, entered after a
backslash. -/
def decodeEscape : List Char → Option (List Char)
  | [] => none
  | e :: rest2 =>
    if e = '"' then (decodeJsonChars rest2).map (fun l => '"' :: l)
    else if e = '\\' then (decodeJsonChars rest2).map (fun l => '\\' :: l)
    else if e = '/' then (decodeJsonChars rest2).map (fun l => '/' :: l)
    else if e = 'b' then (decodeJsonChars rest2).map (fun l => '\x08' :: l)
    else if e = 'f' then (decodeJsonChars rest2).map (fun l => '\x0c' :: l)
    else if e = 'n' then (decodeJsonChars rest2).map (fun l => '\n' :: l)
    else if e = 'r' then (decodeJsonChars rest2).map (fun l => '\x0d' :: l)
    else if e = 't' then (decodeJsonChars rest2).map (fun l => '\t' :: l)
    else if e = 'u' then
      match rest2 with
      | a :: b :: c :: d :: rest3 =>
        match hexVal a, hexVal b, hexVal c, hexVal d with
        | some x, some y, some z, some w =>
          let n := ((x * 16 + y) * 16 + z) * 16 + w
          if 0xD800 ≤ n ∧ n ≤ 0xDBFF then
            match rest3 with
            | '\\' :: 'u' :: a2 :: b2 :: c2 :: d2 :: rest5 =>
              match hexVal a2, hexVal b2, hexVal c2, hexVal d2 with
              | some x2, some y2, some z2, some w2 =>
                let m := ((x2 * 16 + y2) * 16 + z2) * 16 + w2
                if 0xDC00 ≤ m ∧ m ≤ 0xDFFF then
                  (decodeJsonChars rest5).map
                    (fun l => Char.ofNat (0x10000 + (n - 0xD800) * 0x400 + (m - 0xDC00)) :: l)
                else none
              | _, _, _, _ => none
            | _ => none
          else if 0xDC00 ≤ n ∧ n ≤ 0xDFFF then none
          else (decodeJsonChars rest3).map (fun l => Char.ofNat n :: l)
        | _, _, _, _ => none
      | _ => none
    else none

end

/-- Lines 813-816: decode the raw value, falling back to the raw undecoded
text when `json.loads` raises. -/
def decodeOrRaw (raw : List Char) : List Char := (decodeJsonChars raw).getD raw

/-- The extractor state carried across chunks: the accumulated full response
(`json_output`), the working buffer (`buf`), the three flags of lines
750-753, and the situation deltas emitted so far (via `_stream_situation`). -/
structure ExtState where
  jsonOutput : List Char
  buf : List Char
  inSituation : Bool
  escaping : Bool
  doneSituation : Bool
  deltas : List (List Char)
deriving DecidableEq, Repr

/-- Initial extractor state (lines 746-753). -/
def initExt : ExtState := ⟨[], [], false, false, false, []⟩

/-- Steps 3b and 3c of the loop body (lines 796-833), applied once the value
has been entered: scan the buffer; on an unescaped quote emit the decoded
final fragment and stop; otherwise flush the raw characters seen so far as a
delta and clear the buffer. -/
def scanStep (s : ExtState) : ExtState :=
  let r := scanVal s.escaping s.buf
  match r.rest with
  | some tail =>
    { s with buf := tail, escaping := r.esc, doneSituation := true,
             deltas := s.deltas ++ [decodeOrRaw r.out] }
  | none =>
    { s with buf := [], escaping := r.esc,
             deltas := if r.out.isEmpty then s.deltas else s.deltas ++ [r.out] }

/-- One iteration of the `for chunk in stream` loop (lines 760-833) on the
cleaned chunk text: accumulate the full response; when the field is done,
do nothing else; while searching, look for the key and then the colon-quote
pattern (keeping only the last `len(key)` buffer characters when the key is
absent); inside the value, run the scanner. -/
def processChunk (s : ExtState) (text : List Char) : ExtState :=
  let s := { s with jsonOutput := s.jsonOutput ++ text }
  if s.doneSituation then s
  else
    let s := { s with buf := s.buf ++ text }
    if s.inSituation then scanStep s
    else
      match firstOcc situationKey s.buf with
      | none => { s with buf := lastN situationKey.length s.buf }
      | some idx =>
        let buf1 := s.buf.drop (idx + situationKey.length)
        match findColonQuote buf1 with
        | none => { s with buf := buf1 }
        | some e => scanStep { s with buf := buf1.drop e, inSituation := true }

/-- Feed a whole fragment sequence through the extractor. -/
def feedExt (s : ExtState) (chunks : List (List Char)) : ExtState :=
  chunks.foldl processChunk s

/-- Concatenation of all emitted situation deltas. -/
def situationOut (s : ExtState) : List Char := s.deltas.flatten

/-! ## Data models (src/models.py) -/

/-- `Attributes` (src/models.py): the fixed eight-key character mapping. -/
structure Attributes where
  Name : String
  Background : String
  Age : String
  Health : String
  Sanity : String
  Hunger : String
  Thirst : String
  Stamina : String
deriving DecidableEq, Repr

/-- `Environment` (src/models.py): the fixed seven-key mapping. -/
structure Environment where
  Location : String
  Daytime : String
  Light : String
  Temperature : String
  Humidity : String
  Wind : String
  Soundscape : String
deriving DecidableEq, Repr

/-- `InventoryItem` (src/models.py).  The float `weight` is only ever
copied by the code under verification, never computed with; it is modelled
as an exact rational. -/
structure InventoryItem where
  name : String
  description : String
  weight : Rat
  equipped : Bool
deriving DecidableEq, Repr

/-- `PerkSkill` (src/models.py). -/
structure PerkSkill where
  name : String
  degree : String
  description : String
deriving DecidableEq, Repr

/-- `GameResponse` (src/models.py): the parsed full JSON response. -/
structure GameResponse where
  day : Int
  time : String
  current_situation : String
  environment : Environment
  inventory : List InventoryItem
  perks_skills : List PerkSkill
  attributes : Attributes
  options : List String
  image_prompt : String
deriving DecidableEq, Repr

/-! ## The turn state machine (src/NilsRPG.py `RPGGame`)

The mutable fields of the `RPGGame` instance that make up the turn state
(`__init__` lines 182-311).  The Python `attributes`/`environment` dicts are
empty before the first commit and afterwards always hold exactly the model's
fixed key set (`_update_remaining_state` writes every model field); they are
modelled as `Option`.  `inFlight` records whether a dispatched text-API
worker thread exists — in the source this is implicit in the running thread;
a completion callback can only arrive while it is set. -/
structure TurnState where
  turn : Nat
  day : Int
  tm : String
  style_choice : Option String
  diff_choice : Option String
  identity : Option String
  attributes : Option Attributes
  environment : Option Environment
  inventory : List InventoryItem
  perks_skills : List PerkSkill
  current_situation : String
  options : List String
  past_situations : List String
  past_options : List String
  past_days : List Int
  past_times : List String
  previous_image_prompt : Option String
  character_id : Option String
  is_submitting : Bool
  inFlight : Bool
deriving DecidableEq, Repr

/-- The freshly constructed state (`__init__` lines 182-311). -/
def initState : TurnState where
  turn := 1
  day := 0
  tm := ""
  style_choice := none
  diff_choice := none
  identity := none
  attributes := none
  environment := none
  inventory := []
  perks_skills := []
  current_situation := ""
  options := []
  past_situations := []
  past_options := []
  past_days := []
  past_times := []
  previous_image_prompt := none
  character_id := none
  is_submitting := false
  inFlight := false

/-- Python `str.strip()` on the character list: leading and trailing
whitespace removed. -/
def stripChars (l : List Char) : List Char :=
  ((l.dropWhile pyWs).reverse.dropWhile pyWs).reverse

/-- Python `str.strip()` (line 621). -/
def pyStrip (s : String) : String := ⟨stripChars s.data⟩

/-- Choice resolution of `_on_submit` lines 617-621: a valid 1-based radio
selection picks the option verbatim, otherwise the custom entry text is
stripped. -/
def resolveChoice (s : TurnState) (idx : Nat) (customText : String) : String :=
  if 1 ≤ idx ∧ idx ≤ s.options.length then s.options.getD (idx - 1) ""
  else pyStrip customText

/-- `RPGGame._on_submit` (lines 606-631).  Clearing narration and setting
the image-cancellation flag (lines 608-610) touch no turn-state field and
are modelled in the image section.  `idx` is the selected radio option
(1-based; 0 for none) and `customText` the custom entry, stripped as on
line 621.  A blank resolved choice returns after the submit lock was
already taken (lines 615-623). -/
def onSubmit (s : TurnState) (idx : Nat) (customText : String) : TurnState :=
  if s.is_submitting then s
  else
    let s1 := { s with is_submitting := true }
    let choice := resolveChoice s idx customText
    if choice = "" then s1
    else
      { s1 with
        past_situations := s1.past_situations ++ [s1.current_situation]
        past_options := s1.past_options ++ [choice]
        past_days := s1.past_days ++ [s1.day]
        past_times := s1.past_times ++ [s1.tm]
        inFlight := true }

/-- The commit of `RPGGame._update_remaining_state` (lines 913-1047):
whole-mapping / whole-sequence replacement of the turn-state fields from the
parsed response.  The diff computation is presentation-only and mutates no
state field. -/
def commitResponse (s : TurnState) (gr : GameResponse) : TurnState :=
  { s with
    day := gr.day
    tm := gr.time
    current_situation := gr.current_situation
    attributes := some gr.attributes
    environment := some gr.environment
    inventory := gr.inventory
    perks_skills := gr.perks_skills
    options := gr.options }

/-- Successful completion of a non-initial `_call_api` worker: the turn
counter increment of line 644, the `previous_image_prompt` store of line
873, the commit of line 881 and the input re-enabling of line 882 (which
clears the submit lock, `_set_options_enabled` line 1190). -/
def applyResponse (s : TurnState) (gr : GameResponse) : TurnState :=
  let s1 := { s with turn := s.turn + 1, previous_image_prompt := some gr.image_prompt }
  { commitResponse s1 gr with is_submitting := false, inFlight := false }

/-- Successful completion of the initial `_call_api` call (`initial=True`):
identical, but line 643 skips the turn increment. -/
def applyInitial (s : TurnState) (gr : GameResponse) : TurnState :=
  let s1 := { s with previous_image_prompt := some gr.image_prompt }
  { commitResponse s1 gr with is_submitting := false, inFlight := false }

/-- Failing completion of a non-initial `_call_api` worker (StreamError
while iterating the stream, or ParseError at line 847): the except handler
of lines 884-890 re-enables input (clearing the submit lock) and reports the
error; the turn increment of line 644 already happened and nothing is rolled
back. -/
def applyFailure (s : TurnState) : TurnState :=
  { s with turn := s.turn + 1, is_submitting := false, inFlight := false }

/-- Events of the submission pipeline: a user submission, or the completion
(successful or failed) of the dispatched worker. -/
inductive TurnEv where
  | submit (idx : Nat) (customText : String)
  | completeOk (gr : GameResponse)
  | completeFail
deriving DecidableEq, Repr

/-- One pipeline step; the second component counts commits performed by the
step.  Completion events can only originate from a dispatched worker, hence
the `inFlight` guard. -/
def stepEv (s : TurnState) : TurnEv → TurnState × Nat
  | .submit idx txt => (onSubmit s idx txt, 0)
  | .completeOk gr => if s.inFlight then (applyResponse s gr, 1) else (s, 0)
  | .completeFail => if s.inFlight then (applyFailure s, 0) else (s, 0)

/-- Run a sequence of pipeline events, totalling the commits. -/
def runEv (s : TurnState) : List TurnEv → TurnState × Nat
  | [] => (s, 0)
  | e :: rest =>
    let p := stepEv s e
    let q := runEv p.1 rest
    (q.1, p.2 + q.2)

/-- One fully successful turn: an accepted submission of custom text
followed by the successful completion of its worker. -/
def sessionStep (s : TurnState) (p : String × GameResponse) : TurnState :=
  applyResponse (onSubmit s 0 p.1) p.2

/-- A session in which every accepted submission completes successfully:
the initial commit, then one successful turn per (choice, response) pair. -/
def runSession (gr0 : GameResponse) (ps : List (String × GameResponse)) : TurnState :=
  ps.foldl sessionStep (applyInitial initState gr0)

/-! ## Image generation (src/NilsRPG.py `_start_image_generation`) -/

/-- One entry of `response.generated_images`: the raw payload bytes (empty
models Python-falsy bytes) and the optional safety-filter reason. -/
structure GeneratedImage where
  image_bytes : List Nat
  rai_filtered_reason : Option String
deriving DecidableEq, Repr

/-- The image-service response; a missing/`None` `generated_images`
attribute is modelled as the empty list (both are Python-falsy at line
1336). -/
structure ImagesResponse where
  generated_images : List GeneratedImage
deriving DecidableEq, Repr

/-- What the worker schedules for display. -/
inductive ImageOutcome where
  | unavailable
  | filtered
  | display (bytes : List Nat)
deriving DecidableEq, Repr

/-- Python truthiness of the optional reason string. -/
def truthyStr : Option String → Bool
  | none => false
  | some s => !(s == "")

/-- Lines 1335-1372 of `_start_image_generation.thread_target`: empty
response → "unavailable" placeholder; otherwise the lifetime counter is
incremented (line 1344) before the safety check of line 1349; a blocked or
byte-less image → "filtered" placeholder; else the bytes are displayed. -/
def processImageResponse (totalImages : Nat) (resp : ImagesResponse) :
    Nat × ImageOutcome :=
  match resp.generated_images with
  | [] => (totalImages, .unavailable)
  | g :: _ =>
    let t := totalImages + 1
    if g.image_bytes = [] ∨ truthyStr g.rai_filtered_reason then (t, .filtered)
    else (t, .display g.image_bytes)

/-- The whole worker thread (lines 1320-1374) as a function of the
cooperative cancellation flag: the body never reads
`_image_generation_cancel`, so the flag is an unused argument. -/
def imageWorker (_cancelRequested : Bool) (totalImages : Nat)
    (resp : ImagesResponse) : Nat × ImageOutcome :=
  processImageResponse totalImages resp

/-- One step of the progress-bar animation `tick` (lines 1313-1317): the
only place the cancellation flag is consulted; `none` means the animation
stops rescheduling itself. -/
def progressTick (steps : Nat) (cancelRequested : Bool) (value : Nat) :
    Option Nat :=
  if value < steps ∧ ¬cancelRequested then some (value + 1) else none

/-! ## Persistence (src/NilsRPG.py `_save_game` / `_load_game_from_path`) -/

/-- The state-shaped part of the pickled save record written by `_save_game`
(lines 1694-1724).  The UI-only members (pane sizes, story text, scene image
bytes) carry no turn-state information and are omitted. -/
structure SaveData where
  identity : Option String
  style : Option String
  difficulty : Option String
  turn : Nat
  day : Int
  tm : String
  current_situation : String
  environment : Option Environment
  attributes : Option Attributes
  inventory : List InventoryItem
  perks_skills : List PerkSkill
  options : List String
  past_situations : List String
  past_options : List String
  past_days : List Int
  past_times : List String
  previous_image_prompt : Option String
  character_id : String
deriving DecidableEq, Repr

/-- `_save_game` (lines 1689-1724): skipped entirely when no character id
exists; otherwise every state field is written as-is. -/
def saveGame (s : TurnState) : Option SaveData :=
  match s.character_id with
  | none => none
  | some cid =>
    some
      { identity := s.identity
        style := s.style_choice
        difficulty := s.diff_choice
        turn := s.turn
        day := s.day
        tm := s.tm
        current_situation := s.current_situation
        environment := s.environment
        attributes := s.attributes
        inventory := s.inventory
        perks_skills := s.perks_skills
        options := s.options
        past_situations := s.past_situations
        past_options := s.past_options
        past_days := s.past_days
        past_times := s.past_times
        previous_image_prompt := s.previous_image_prompt
        character_id := cid }

/-- The core-state part of `_reset_game` (lines 1592-1614): wipes the turn
state but touches neither `character_id`, `previous_image_prompt` nor the
submit lock. -/
def resetGame (s : TurnState) : TurnState :=
  { s with
    turn := 1
    day := 0
    tm := ""
    identity := none
    current_situation := ""
    options := []
    past_situations := []
    past_options := []
    past_days := []
    past_times := []
    attributes := none
    environment := none
    inventory := []
    perks_skills := [] }

/-- `_load_game_from_path` (lines 1901-1948): restore style/difficulty,
reset, reassign the history fields, rebuild a `GameResponse` from the record
and commit it through `_update_remaining_state`.  Reconstructing
`Attributes(**…)` / `Environment(**…)` from an empty dict raises a
validation error, modelled as `none`. -/
def loadGame (d : SaveData) (s : TurnState) : Option TurnState :=
  match d.attributes, d.environment with
  | some a, some env =>
    let s0 := resetGame { s with style_choice := d.style, diff_choice := d.difficulty }
    let s1 :=
      { s0 with
        character_id := some d.character_id
        identity := d.identity
        turn := d.turn
        past_situations := d.past_situations
        past_options := d.past_options
        past_days := d.past_days
        past_times := d.past_times
        previous_image_prompt := d.previous_image_prompt }
    let gr : GameResponse :=
      { day := d.day
        time := d.tm
        current_situation := d.current_situation
        environment := env
        inventory := d.inventory
        perks_skills := d.perks_skills
        attributes := a
        options := d.options
        image_prompt := d.previous_image_prompt.getD "" }
    some (commitResponse s1 gr)
  | _, _ => none

/-! ## `clean_unicode` (src/utils.py lines 91-99) -/

/-- The JSON-ish Python values `clean_unicode` is applied to: strings,
numeric/bool/None leaves, sequences, and string-keyed mappings. -/
inductive PyVal where
  | str (s : List Char)
  | intVal (n : Int)
  | floatVal (q : Rat)
  | boolVal (b : Bool)
  | noneVal
  | listVal (items : List PyVal)
  | dictVal (entries : List (List Char × PyVal))

mutual

/-- `clean_unicode` (src/utils.py lines 91-99), parameterized by the
external `unicodedata.category(ch)[0] == "C"` test `isC`: strings are
filtered to the characters whose category does not start with `C`; mapping
values and sequence items are cleaned recursively (mapping keys are kept
as-is); every other object is returned unchanged. -/
def cleanVal (isC : Char → Bool) : PyVal → PyVal
  | .str s => .str (s.filter (fun c => !isC c))
  | .listVal items => .listVal (cleanValList isC items)
  | .dictVal entries => .dictVal (cleanValEntries isC entries)
  | .intVal n => .intVal n
  | .floatVal q => .floatVal q
  | .boolVal b => .boolVal b
  | .noneVal => .noneVal

/-- `clean_unicode` mapped over the items of a sequence. -/
def cleanValList (isC : Char → Bool) : List PyVal → List PyVal
  | [] => []
  | v :: rest => cleanVal isC v :: cleanValList isC rest

/-- `clean_unicode` mapped over the values of a mapping. -/
def cleanValEntries (isC : Char → Bool) :
    List (List Char × PyVal) → List (List Char × PyVal)
  | [] => []
  | kv :: rest => (kv.1, cleanVal isC kv.2) :: cleanValEntries isC rest

end

/-- Specification-side relation (from the claim's words): `s'` is `s` with
exactly its category-C characters removed and every other character kept in
order. -/
inductive RemovalOf (isC : Char → Bool) : List Char → List Char → Prop where
  | nil : RemovalOf isC [] []
  | keep {c : Char} {s s' : List Char} :
      isC c = false → RemovalOf isC s s' → RemovalOf isC (c :: s) (c :: s')
  | drop {c : Char} {s s' : List Char} :
      isC c = true → RemovalOf isC s s' → RemovalOf isC (c :: s) s'

mutual

/-- Specification-side relation (from the claim's words): the cleaned value
has the same shape as the original, every string value underwent exactly the
category-C removal, and every non-string leaf is unchanged. -/
inductive CleanedOf (isC : Char → Bool) : PyVal → PyVal → Prop where
  | str {s s' : List Char} :
      RemovalOf isC s s' → CleanedOf isC (.str s) (.str s')
  | intVal (n : Int) : CleanedOf isC (.intVal n) (.intVal n)
  | floatVal (q : Rat) : CleanedOf isC (.floatVal q) (.floatVal q)
  | boolVal (b : Bool) : CleanedOf isC (.boolVal b) (.boolVal b)
  | noneVal : CleanedOf isC .noneVal .noneVal
  | listVal {xs ys : List PyVal} :
      CleanedListOf isC xs ys →
      CleanedOf isC (.listVal xs) (.listVal ys)
  | dictVal {xs ys : List (List Char × PyVal)} :
      CleanedEntriesOf isC xs ys →
      CleanedOf isC (.dictVal xs) (.dictVal ys)

/-- Item-wise `CleanedOf` over sequence items. -/
inductive CleanedListOf (isC : Char → Bool) : List PyVal → List PyVal → Prop where
  | nil : CleanedListOf isC [] []
  | cons {v v' : PyVal} {r r' : List PyVal} :
      CleanedOf isC v v' → CleanedListOf isC r r' →
      CleanedListOf isC (v :: r) (v' :: r')

/-- Entry-wise `CleanedOf` over mapping entries: keys identical, values
cleaned. -/
inductive CleanedEntriesOf (isC : Char → Bool) :
    List (List Char × PyVal) → List (List Char × PyVal) → Prop where
  | nil : CleanedEntriesOf isC [] []
  | cons {k : List Char} {v v' : PyVal} {r r' : List (List Char × PyVal)} :
      CleanedOf isC v v' → CleanedEntriesOf isC r r' →
      CleanedEntriesOf isC ((k, v) :: r) ((k, v') :: r')

end

/-! ## Concrete fixtures used by witnesses and counterexamples -/

/-- A fully populated attribute set. -/
def exampleAttrs : Attributes :=
  ⟨"Ann", "Rogue", "23", "Good", "Stable", "Low", "Low", "High"⟩

/-- A fully populated environment. -/
def exampleEnv : Environment :=
  ⟨"Forest", "Noon", "Bright", "Mild", "Dry", "Calm", "birds"⟩

/-- A well-formed game response. -/
def exampleResponse : GameResponse where
  day := 1
  time := "08:00"
  current_situation := "You wake under a tree."
  environment := exampleEnv
  inventory := [⟨"Knife", "A sharp knife.", 1, true⟩]
  perks_skills := [⟨"Stealth", "novice", "Moves quietly."⟩]
  attributes := exampleAttrs
  options := ["Go north", "Stay"]
  image_prompt := "a forest clearing"

/-- A committed state: the initial turn has been applied to a fresh game
with a chosen character. -/
def exampleCommitted : TurnState :=
  applyInitial
    { initState with character_id := some "abc123", identity := some "a wanderer" }
    exampleResponse

/-- A committed state with empty inventory and perks and no previous image
prompt. -/
def exampleSparse : TurnState :=
  { initState with
    character_id := some "id7"
    attributes := some exampleAttrs
    environment := some exampleEnv
    current_situation := "A bare room."
    options := ["Wait"] }

/-- The record `_save_game` writes for `exampleSparse`. -/
def exampleSave : SaveData where
  identity := none
  style := none
  difficulty := none
  turn := 1
  day := 0
  tm := ""
  current_situation := "A bare room."
  environment := some exampleEnv
  attributes := some exampleAttrs
  inventory := []
  perks_skills := []
  options := ["Wait"]
  past_situations := []
  past_options := []
  past_days := []
  past_times := []
  previous_image_prompt := none
  character_id := "id7"

/-! ## Scaffolding for the fragmentation analysis of the extractor -/

/-- The colon-space-quote separator the model emits between the key and its
value (`": \""`). -/
def sepCQ : List Char := [':', ' ', '"']

/-- A complete response text around the situation field: an arbitrary prefix
(the earlier JSON fields), the quoted key, `: "`, the value, the closing
quote and an arbitrary suffix. -/
def sitDoc (pre v post : List Char) : List Char :=
  pre ++ situationKey ++ sepCQ ++ v ++ '"' :: post

/-- Document position one past the key. -/
def keyEnd (pre : List Char) : Nat := pre.length + situationKey.length

/-- Document position of the first value character (one past the opening
quote). -/
def valStart (pre : List Char) : Nat := keyEnd pre + 3

/-- Document position of the closing quote. -/
def valEnd (pre v : List Char) : Nat := valStart pre + v.length

/-- Boolean check that every fragment boundary (cumulative cut position,
starting from `k`) lies either strictly before the end of the key or at/after
the end of the opening quote — i.e. no boundary separates the key from its
`: "`. -/
def cutsOKb (P : Nat) : Nat → List (List Char) → Bool
  | _, [] => true
  | k, t :: rest =>
    (decide (k + t.length < P + situationKey.length) ||
      decide (P + situationKey.length + 3 ≤ k + t.length)) &&
    cutsOKb P (k + t.length) rest

/-- Simulation invariant for the extractor after consuming the first `k`
characters of `sitDoc pre v post`: either still searching for the key (with
the rolling buffer holding the last `len(key)` consumed characters and
nothing emitted), or inside the value (buffer flushed at each boundary,
deltas concatenating to the consumed part of the value), or done (deltas
concatenating to the whole value). -/
def ExtInv (pre v post : List Char) (k : Nat) (s : ExtState) : Prop :=
  s.jsonOutput = (sitDoc pre v post).take k ∧
  ((k < keyEnd pre ∧
      s.buf = ((sitDoc pre v post).take k).drop (k - situationKey.length) ∧
      s.inSituation = false ∧ s.escaping = false ∧ s.doneSituation = false ∧
      s.deltas = []) ∨
   (valStart pre ≤ k ∧ k ≤ valEnd pre v ∧ s.buf = [] ∧
      s.inSituation = true ∧ s.escaping = false ∧ s.doneSituation = false ∧
      s.deltas.flatten = v.take (k - valStart pre)) ∨
   (valEnd pre v < k ∧ s.doneSituation = true ∧ s.deltas.flatten = v))

/-! ## Helper lemmas -/

/-- A submission arriving while the lock is held is dropped before touching
any state (lines 613-614). -/
theorem onSubmit_locked {s : TurnState} (h : s.is_submitting = true)
    (idx : Nat) (txt : String) : onSubmit s idx txt = s := by
  simp [onSubmit, h]

/-- Characterization of an accepted submission: the lock is taken, the
worker is dispatched, and the four history lists each gain the entry built
from the pre-submission state. -/
theorem onSubmit_accepted_eq {s : TurnState} {idx : Nat} {txt : String}
    (h1 : s.is_submitting = false) (h2 : resolveChoice s idx txt ≠ "") :
    onSubmit s idx txt =
      { s with
        is_submitting := true
        inFlight := true
        past_situations := s.past_situations ++ [s.current_situation]
        past_options := s.past_options ++ [resolveChoice s idx txt]
        past_days := s.past_days ++ [s.day]
        past_times := s.past_times ++ [s.tm] } := by
  simp [onSubmit, h1, h2]

/-- `runEv` splits over list append. -/
theorem runEv_append (s : TurnState) (l1 l2 : List TurnEv) :
    runEv s (l1 ++ l2) =
      ((runEv (runEv s l1).1 l2).1, (runEv s l1).2 + (runEv (runEv s l1).1 l2).2) := by
  induction l1 generalizing s with
  | nil => simp [runEv]
  | cons e rest ih =>
    simp [runEv, ih (stepEv s e).1, Nat.add_assoc]

/-- While the submit lock is held, any sequence of submission events leaves
the state unchanged and commits nothing. -/
theorem runEv_submits_locked {mids : List TurnEv}
    (hm : ∀ m ∈ mids, ∃ i t, m = TurnEv.submit i t) :
    ∀ {s : TurnState}, s.is_submitting = true → runEv s mids = (s, 0) := by
  induction mids with
  | nil => intro s _; rfl
  | cons m rest ih =>
    intro s h
    obtain ⟨i, t, rfl⟩ := hm m (List.mem_cons_self m rest)
    have hstep : stepEv s (TurnEv.submit i t) = (s, 0) := by
      simp [stepEv, onSubmit_locked h]
    simp [runEv, hstep, ih (fun m hmem => hm m (List.mem_cons_of_mem _ hmem)) h]

/-- `RemovalOf` holds of Python's `"".join(ch for ch in obj if …)` filter. -/
theorem removalOf_filter (isC : Char → Bool) :
    ∀ s : List Char, RemovalOf isC s (s.filter (fun c => !isC c)) := by
  intro s
  induction s with
  | nil => exact RemovalOf.nil
  | cons c rest ih =>
    by_cases h : isC c
    · simpa [List.filter, h] using RemovalOf.drop h ih
    · have h' : isC c = false := by simp [h]
      simpa [List.filter, h'] using RemovalOf.keep h' ih

mutual

/-- `cleanVal` realizes the claim's cleaned-of relation on every value. -/
theorem cleanValAux (isC : Char → Bool) :
    ∀ v : PyVal, CleanedOf isC v (cleanVal isC v)
  | .str s => CleanedOf.str (removalOf_filter isC s)
  | .intVal n => CleanedOf.intVal n
  | .floatVal q => CleanedOf.floatVal q
  | .boolVal b => CleanedOf.boolVal b
  | .noneVal => CleanedOf.noneVal
  | .listVal items => CleanedOf.listVal (cleanValListAux isC items)
  | .dictVal entries => CleanedOf.dictVal (cleanValEntriesAux isC entries)

/-- Item-wise version of `cleanValAux`. -/
theorem cleanValListAux (isC : Char → Bool) :
    ∀ items : List PyVal, CleanedListOf isC items (cleanValList isC items)
  | [] => CleanedListOf.nil
  | v :: rest => CleanedListOf.cons (cleanValAux isC v) (cleanValListAux isC rest)

/-- Entry-wise version of `cleanValAux`. -/
theorem cleanValEntriesAux (isC : Char → Bool) :
    ∀ entries : List (List Char × PyVal),
      CleanedEntriesOf isC entries (cleanValEntries isC entries)
  | [] => CleanedEntriesOf.nil
  | (_k, v) :: rest =>
    CleanedEntriesOf.cons (cleanValAux isC v) (cleanValEntriesAux isC rest)

end

/-! ## Claim theorems -/

/-- C5 (code_bug evidence): `_start_image_generation` evaluated on an empty
response and on a safety-blocked response carrying payload: the empty
response leaves the lifetime counter alone, but the blocked response
increments it (line 1344 runs before the `rai_filtered_reason` check of
line 1349) while displaying the "filtered" placeholder — contradicting the
claim that blocked results never increment the counter. -/
theorem c5_blocked_image_increments_counter :
    processImageResponse 0 ⟨[]⟩ = (0, ImageOutcome.unavailable) ∧
    processImageResponse 0 ⟨[⟨[7, 7], some "SAFETY"⟩]⟩ = (1, ImageOutcome.filtered) ∧
    processImageResponse 0 ⟨[⟨[], some "SAFETY"⟩]⟩ = (1, ImageOutcome.filtered) := by
  refine ⟨rfl, ?_, rfl⟩
  decide

/-- C6 counterexample: cancellation is requested (flag `true`) while the
image worker's network call is in flight, the call returns a successful
image, and the worker still ends by displaying it — the result is not
discarded. -/
theorem c6_cancelled_result_still_displayed :
    imageWorker true 0 ⟨[⟨[1, 2, 3], none⟩]⟩ = (1, ImageOutcome.display [1, 2, 3]) := by
  decide

/-- C6 amended: the worker's outcome is independent of the cancellation
flag — an in-flight call's result is processed and displayed exactly as if
no cancellation had been requested; the flag is honoured only by the
progress-bar animation, which stops rescheduling itself. -/
theorem c6_cancellation_only_stops_animation :
    (∀ (c : Bool) (t : Nat) (r : ImagesResponse), imageWorker c t r = imageWorker false t r) ∧
    (∀ steps v : Nat, progressTick steps true v = none) := by
  exact ⟨fun _ _ _ => rfl, fun steps v => by simp [progressTick]⟩

/-- C7 (code_bug evidence): submitting a blank choice takes the submit lock
(line 615) and returns without releasing it (lines 622-623), so the state is
otherwise unchanged but every subsequent submission — including non-blank
ones — is silently dropped by the guard of lines 613-614: input stays
locked, contradicting the claim. -/
theorem c7_blank_choice_leaves_lock_held :
    (onSubmit exampleCommitted 0 "   ").is_submitting = true ∧
    (onSubmit exampleCommitted 0 "   ").inFlight = false ∧
    (onSubmit exampleCommitted 0 "   ").past_options = exampleCommitted.past_options ∧
    (onSubmit exampleCommitted 0 "   ").turn = exampleCommitted.turn ∧
    (∀ (idx : Nat) (txt : String),
      onSubmit (onSubmit exampleCommitted 0 "   ") idx txt =
        onSubmit exampleCommitted 0 "   ") := by
  refine ⟨by decide, by decide, by decide, by decide, ?_⟩
  intro idx txt
  exact onSubmit_locked (by decide) idx txt

/-- C2 counterexample: a concrete committed state, an accepted submission
whose text generation then fails: the history lists and the turn counter do
differ from their pre-submission values, so the turn state is not left
unchanged by the failure. -/
theorem c2_failure_mutates_history_and_turn :
    (applyFailure (onSubmit exampleCommitted 0 "Go north")).past_options ≠
      exampleCommitted.past_options ∧
    (applyFailure (onSubmit exampleCommitted 0 "Go north")).turn ≠
      exampleCommitted.turn := by
  decide

/-- C2 amended: when an accepted submission's stream or parse fails, the
pipeline returns to Idle and no part of the parsed response is committed —
day, time, attributes, environment, inventory, perks, situation, options and
the previous image prompt keep their pre-submission values — but the four
history lists keep the entry appended at submission time and the turn
counter keeps the increment made before the network call. -/
theorem c2_failure_no_partial_commit (s : TurnState) (idx : Nat) (txt : String)
    (h1 : s.is_submitting = false) (h2 : resolveChoice s idx txt ≠ "") :
    (applyFailure (onSubmit s idx txt)).is_submitting = false ∧
    (applyFailure (onSubmit s idx txt)).inFlight = false ∧
    (applyFailure (onSubmit s idx txt)).day = s.day ∧
    (applyFailure (onSubmit s idx txt)).tm = s.tm ∧
    (applyFailure (onSubmit s idx txt)).attributes = s.attributes ∧
    (applyFailure (onSubmit s idx txt)).environment = s.environment ∧
    (applyFailure (onSubmit s idx txt)).inventory = s.inventory ∧
    (applyFailure (onSubmit s idx txt)).perks_skills = s.perks_skills ∧
    (applyFailure (onSubmit s idx txt)).current_situation = s.current_situation ∧
    (applyFailure (onSubmit s idx txt)).options = s.options ∧
    (applyFailure (onSubmit s idx txt)).previous_image_prompt = s.previous_image_prompt ∧
    (applyFailure (onSubmit s idx txt)).past_situations =
      s.past_situations ++ [s.current_situation] ∧
    (applyFailure (onSubmit s idx txt)).past_options =
      s.past_options ++ [resolveChoice s idx txt] ∧
    (applyFailure (onSubmit s idx txt)).past_days = s.past_days ++ [s.day] ∧
    (applyFailure (onSubmit s idx txt)).past_times = s.past_times ++ [s.tm] ∧
    (applyFailure (onSubmit s idx txt)).turn = s.turn + 1 := by
  rw [onSubmit_accepted_eq h1 h2]
  simp [applyFailure]

/-- Witness for `c2_failure_no_partial_commit` at a concrete committed state
and choice. -/
theorem c2_failure_no_partial_commit_witness :
    (applyFailure (onSubmit exampleCommitted 3 "Look around")).past_options =
      exampleCommitted.past_options ++ [resolveChoice exampleCommitted 3 "Look around"] ∧
    (applyFailure (onSubmit exampleCommitted 3 "Look around")).turn =
      exampleCommitted.turn + 1 := by
  have h := c2_failure_no_partial_commit exampleCommitted 3 "Look around"
    (by decide) (by decide)
  obtain ⟨-, -, -, -, -, -, -, -, -, -, -, -, h13, -, -, h16⟩ := h
  exact ⟨h13, h16⟩

/-- C3: while an accepted submission has not returned to Idle, a second
`_on_submit` call is rejected with the turn state (every field) unchanged
and performs no commit; and an accepted submission, however many rejected
submissions arrive in between, produces exactly one commit when its worker
completes, after which the pipeline is Idle again. -/
theorem c3_single_flight_one_commit :
    (∀ (s : TurnState) (idx : Nat) (txt : String), s.is_submitting = true →
      stepEv s (TurnEv.submit idx txt) = (s, 0)) ∧
    (∀ (s : TurnState) (idx : Nat) (txt : String) (mids : List TurnEv)
        (gr : GameResponse),
      s.is_submitting = false → s.inFlight = false →
      resolveChoice s idx txt ≠ "" →
      (∀ m ∈ mids, ∃ i t, m = TurnEv.submit i t) →
      (runEv s (TurnEv.submit idx txt :: (mids ++ [TurnEv.completeOk gr]))).2 = 1 ∧
      (runEv s (TurnEv.submit idx txt :: (mids ++ [TurnEv.completeOk gr]))).1.is_submitting
        = false) := by
  constructor
  · intro s idx txt h
    simp [stepEv, onSubmit_locked h]
  · intro s idx txt mids gr h1 h2 h3 hm
    have hacc := onSubmit_accepted_eq h1 h3
    have hsub : (onSubmit s idx txt).is_submitting = true := by rw [hacc]
    have hfl : (onSubmit s idx txt).inFlight = true := by rw [hacc]
    have hmids := runEv_submits_locked hm hsub
    have hstep : stepEv s (TurnEv.submit idx txt) = (onSubmit s idx txt, 0) := rfl
    have happ := runEv_append (onSubmit s idx txt) mids [TurnEv.completeOk gr]
    constructor
    · simp [runEv, hstep, happ, hmids, stepEv, hfl]
    · simp [runEv, hstep, happ, hmids, stepEv, hfl, applyResponse]

/-- Witness for `c3_single_flight_one_commit`: from a concrete committed
state, an accepted submission, one rejected double-submission and a
successful completion yield exactly one commit and an Idle pipeline. -/
theorem c3_single_flight_one_commit_witness :
    (runEv exampleCommitted
      (TurnEv.submit 0 "Go" :: ([TurnEv.submit 0 "Again"] ++ [TurnEv.completeOk exampleResponse]))).2 = 1 ∧
    (runEv exampleCommitted
      (TurnEv.submit 0 "Go" :: ([TurnEv.submit 0 "Again"] ++ [TurnEv.completeOk exampleResponse]))).1.is_submitting = false :=
  (c3_single_flight_one_commit.2 exampleCommitted 0 "Go"
    [TurnEv.submit 0 "Again"] exampleResponse (by decide) (by decide) (by decide)
    (by intro m hm; simp at hm; exact ⟨0, "Again", hm⟩))

/-- Session invariant behind C4: folding fully successful turns over any
idle state advances the turn counter and all four history lists in
lock-step. -/
theorem session_invariant (ps : List (String × GameResponse)) :
    ∀ s : TurnState, (∀ p ∈ ps, pyStrip p.1 ≠ "") → s.is_submitting = false →
      (ps.foldl sessionStep s).turn = s.turn + ps.length ∧
      (ps.foldl sessionStep s).past_days.length = s.past_days.length + ps.length ∧
      (ps.foldl sessionStep s).past_times.length = s.past_times.length + ps.length ∧
      (ps.foldl sessionStep s).past_situations.length =
        s.past_situations.length + ps.length ∧
      (ps.foldl sessionStep s).past_options.length =
        s.past_options.length + ps.length ∧
      (ps.foldl sessionStep s).is_submitting = false := by
  induction ps with
  | nil => intro s _ hs; simp [hs]
  | cons p rest ih =>
    intro s hp hs
    have hch : pyStrip p.1 ≠ "" := hp p (List.mem_cons_self p rest)
    have hres : resolveChoice s 0 p.1 ≠ "" := by
      simpa [resolveChoice] using hch
    have hacc := onSubmit_accepted_eq hs hres
    have hstep : (sessionStep s p).is_submitting = false := by
      simp [sessionStep, applyResponse]
    obtain ⟨i1, i2, i3, i4, i5, i6⟩ :=
      ih (sessionStep s p) (fun q hq => hp q (List.mem_cons_of_mem _ hq)) hstep
    have l1 : (sessionStep s p).turn = s.turn + 1 := by
      simp [sessionStep, hacc, applyResponse, commitResponse]
    have l2 : (sessionStep s p).past_days.length = s.past_days.length + 1 := by
      simp [sessionStep, hacc, applyResponse, commitResponse]
    have l3 : (sessionStep s p).past_times.length = s.past_times.length + 1 := by
      simp [sessionStep, hacc, applyResponse, commitResponse]
    have l4 : (sessionStep s p).past_situations.length =
        s.past_situations.length + 1 := by
      simp [sessionStep, hacc, applyResponse, commitResponse]
    have l5 : (sessionStep s p).past_options.length =
        s.past_options.length + 1 := by
      simp [sessionStep, hacc, applyResponse, commitResponse]
    simp only [List.foldl_cons, List.length_cons]
    refine ⟨?_, ?_, ?_, ?_, ?_, i6⟩
    · rw [i1, l1]; omega
    · rw [i2, l2]; omega
    · rw [i3, l3]; omega
    · rw [i4, l4]; omega
    · rw [i5, l5]; omega

/-- C4: in a fully successful session (initial commit followed by N-1
successful turns), the history lists have exactly N-1 entries, the turn
counter is N, history length equals `turn - 1`, and each successful turn
appends exactly one entry capturing the immediately preceding day, time,
situation and the chosen option. -/
theorem c4_history_length_turn (gr0 : GameResponse)
    (ps : List (String × GameResponse)) (hp : ∀ p ∈ ps, pyStrip p.1 ≠ "") :
    (runSession gr0 ps).turn = ps.length + 1 ∧
    (runSession gr0 ps).past_days.length = (runSession gr0 ps).turn - 1 ∧
    (runSession gr0 ps).past_times.length = (runSession gr0 ps).turn - 1 ∧
    (runSession gr0 ps).past_situations.length = (runSession gr0 ps).turn - 1 ∧
    (runSession gr0 ps).past_options.length = (runSession gr0 ps).turn - 1 ∧
    (∀ (s : TurnState) (choice : String) (gr : GameResponse),
      s.is_submitting = false → pyStrip choice ≠ "" →
      (sessionStep s (choice, gr)).past_days = s.past_days ++ [s.day] ∧
      (sessionStep s (choice, gr)).past_times = s.past_times ++ [s.tm] ∧
      (sessionStep s (choice, gr)).past_situations =
        s.past_situations ++ [s.current_situation] ∧
      (sessionStep s (choice, gr)).past_options = s.past_options ++ [pyStrip choice]) := by
  have hbase : (applyInitial initState gr0).is_submitting = false := rfl
  have h0 := session_invariant ps (applyInitial initState gr0) hp hbase
  have hturn0 : (applyInitial initState gr0).turn = 1 := rfl
  have hlists : (applyInitial initState gr0).past_days.length = 0 ∧
      (applyInitial initState gr0).past_times.length = 0 ∧
      (applyInitial initState gr0).past_situations.length = 0 ∧
      (applyInitial initState gr0).past_options.length = 0 := ⟨rfl, rfl, rfl, rfl⟩
  have hturn : (runSession gr0 ps).turn = ps.length + 1 := by
    have := h0.1
    simpa [runSession, hturn0, Nat.add_comm] using this
  refine ⟨hturn, ?_, ?_, ?_, ?_, ?_⟩
  · rw [hturn]
    simpa [runSession, hlists.1] using h0.2.1
  · rw [hturn]
    simpa [runSession, hlists.2.1] using h0.2.2.1
  · rw [hturn]
    simpa [runSession, hlists.2.2.1] using h0.2.2.2.1
  · rw [hturn]
    simpa [runSession, hlists.2.2.2] using h0.2.2.2.2.1
  · intro s choice gr hs hch
    have hres : resolveChoice s 0 choice ≠ "" := by
      simpa [resolveChoice] using hch
    have hacc := onSubmit_accepted_eq hs hres
    refine ⟨?_, ?_, ?_, ?_⟩ <;>
      simp [sessionStep, hacc, applyResponse, commitResponse, resolveChoice]

/-- Witness for `c4_history_length_turn`: a two-commit session has exactly
one history entry and turn counter two. -/
theorem c4_history_length_turn_witness :
    (runSession exampleResponse [("Go north", exampleResponse)]).turn = 2 ∧
    (runSession exampleResponse [("Go north", exampleResponse)]).past_days.length =
      (runSession exampleResponse [("Go north", exampleResponse)]).turn - 1 := by
  have h := c4_history_length_turn exampleResponse [("Go north", exampleResponse)]
    (by intro p hp; simp at hp; subst hp; decide)
  exact ⟨h.1 ▸ rfl, h.2.1⟩

/-- C9: saving a committed state and loading the record back reconstructs a
state equal in every TurnState field — turn, day, time, attributes,
environment, inventory, perks, current situation, options, the four history
lists and the previous image prompt — regardless of what state the load is
performed over. -/
theorem c9_save_load_roundtrip (s s₂ : TurnState) (d : SaveData)
    (ha : s.attributes.isSome) (he : s.environment.isSome)
    (hd : saveGame s = some d) :
    ∃ s' : TurnState, loadGame d s₂ = some s' ∧
      s'.turn = s.turn ∧ s'.day = s.day ∧ s'.tm = s.tm ∧
      s'.attributes = s.attributes ∧ s'.environment = s.environment ∧
      s'.inventory = s.inventory ∧ s'.perks_skills = s.perks_skills ∧
      s'.current_situation = s.current_situation ∧ s'.options = s.options ∧
      s'.past_situations = s.past_situations ∧
      s'.past_options = s.past_options ∧
      s'.past_days = s.past_days ∧
      s'.past_times = s.past_times ∧
      s'.previous_image_prompt = s.previous_image_prompt := by
  obtain ⟨a, hA⟩ := Option.isSome_iff_exists.mp ha
  obtain ⟨env, hE⟩ := Option.isSome_iff_exists.mp he
  cases hcid : s.character_id with
  | none => simp [saveGame, hcid] at hd
  | some cid =>
    have hsd : saveGame s = some
        { identity := s.identity, style := s.style_choice,
          difficulty := s.diff_choice, turn := s.turn, day := s.day,
          tm := s.tm, current_situation := s.current_situation,
          environment := s.environment, attributes := s.attributes,
          inventory := s.inventory, perks_skills := s.perks_skills,
          options := s.options, past_situations := s.past_situations,
          past_options := s.past_options, past_days := s.past_days,
          past_times := s.past_times,
          previous_image_prompt := s.previous_image_prompt,
          character_id := cid } := by
      simp [saveGame, hcid]
    rw [hsd] at hd
    injection hd with hd
    subst hd
    simp only [loadGame, hA, hE]
    refine ⟨_, rfl, ?_⟩
    simp [resetGame, commitResponse]

/-- Witness for `c9_save_load_roundtrip` at a committed state with empty
inventory and perks and an unset previous image prompt. -/
theorem c9_save_load_roundtrip_witness :
    ∃ s' : TurnState, loadGame exampleSave initState = some s' ∧
      s'.turn = exampleSparse.turn ∧ s'.day = exampleSparse.day ∧
      s'.tm = exampleSparse.tm ∧
      s'.attributes = exampleSparse.attributes ∧
      s'.environment = exampleSparse.environment ∧
      s'.inventory = exampleSparse.inventory ∧
      s'.perks_skills = exampleSparse.perks_skills ∧
      s'.current_situation = exampleSparse.current_situation ∧
      s'.options = exampleSparse.options ∧
      s'.past_situations = exampleSparse.past_situations ∧
      s'.past_options = exampleSparse.past_options ∧
      s'.past_days = exampleSparse.past_days ∧
      s'.past_times = exampleSparse.past_times ∧
      s'.previous_image_prompt = exampleSparse.previous_image_prompt :=
  c9_save_load_roundtrip exampleSparse initState exampleSave
    (by decide) (by decide) (by decide)

/-- C10: `clean_unicode` returns a structure of the same shape in which
every string value equals the original with exactly the characters whose
Unicode category starts with C removed (order preserved) and every
non-string leaf unchanged — for any category-C test `isC` standing for the
external `unicodedata.category`. -/
theorem c10_clean_unicode_shape (isC : Char → Bool) (v : PyVal) :
    CleanedOf isC v (cleanVal isC v) :=
  cleanValAux isC v

/-! ## Extractor helper lemmas -/

theorem situationKey_length : situationKey.length = 19 := rfl

theorem situationKey_ne_nil : situationKey ≠ [] := by decide

/-- `find` returns `none` when the pattern occurs nowhere. -/
theorem firstOcc_eq_none_of {pat l : List Char}
    (h : ∀ i, ¬ pat <+: l.drop i) : firstOcc pat l = none := by
  induction l with
  | nil =>
    have hp : pat ≠ [] := by
      intro hp
      exact h 0 (by simp [hp])
    simp [firstOcc, hp]
  | cons c rest ih =>
    have hpre : ¬ pat.isPrefixOf (c :: rest) = true := by
      rw [List.isPrefixOf_iff_prefix]
      simpa using h 0
    have ih' := ih (fun i => by simpa using h (i + 1))
    simp [firstOcc, hpre, ih']

/-- `find` returns the position of an occurrence that no earlier position
matches. -/
theorem firstOcc_eq_some_of {pat : List Char} (hp : pat ≠ []) :
    ∀ (i : Nat) (l : List Char), pat <+: l.drop i →
      (∀ j, j < i → ¬ pat <+: l.drop j) → firstOcc pat l = some i := by
  intro i
  induction i with
  | zero =>
    intro l hocc _
    cases l with
    | nil =>
      rw [List.drop_nil] at hocc
      exact absurd (List.prefix_nil.mp hocc) hp
    | cons c rest =>
      have : pat.isPrefixOf (c :: rest) = true :=
        List.isPrefixOf_iff_prefix.mpr (by simpa using hocc)
      simp [firstOcc, this]
  | succ i ih =>
    intro l hocc hmin
    cases l with
    | nil =>
      rw [List.drop_nil] at hocc
      exact absurd (List.prefix_nil.mp hocc) hp
    | cons c rest =>
      have h0 : ¬ pat <+: (c :: rest) := by simpa using hmin 0 (Nat.succ_pos i)
      have hpre : ¬ pat.isPrefixOf (c :: rest) = true := by
        rw [List.isPrefixOf_iff_prefix]
        exact h0
      have ihr := ih rest (by simpa using hocc)
        (fun j hj => by simpa using hmin (j + 1) (Nat.succ_lt_succ hj))
      simp [firstOcc, hpre, ihr]

/-- Scanning a buffer free of quotes and backslashes consumes it whole
without closing. -/
theorem scanVal_clean {l : List Char} (h : ∀ c ∈ l, c ≠ '"' ∧ c ≠ '\\') :
    scanVal false l = ⟨l, false, none⟩ := by
  induction l with
  | nil => rfl
  | cons c rest ih =>
    have hc := h c (List.mem_cons_self ..)
    have ih' := ih (fun d hd => h d (List.mem_cons_of_mem _ hd))
    simp [scanVal, hc.1, hc.2, ih']

/-- Scanning a clean buffer followed by an unescaped quote closes at that
quote. -/
theorem scanVal_clean_quote {l : List Char}
    (h : ∀ c ∈ l, c ≠ '"' ∧ c ≠ '\\') (r : List Char) :
    scanVal false (l ++ '"' :: r) = ⟨l, false, some r⟩ := by
  induction l with
  | nil => simp [scanVal]
  | cons c rest ih =>
    have hc := h c (List.mem_cons_self ..)
    have ih' := ih (fun d hd => h d (List.mem_cons_of_mem _ hd))
    simp [scanVal, hc.1, hc.2, ih']

/-- A clean buffer ending in a backslash leaves the scanner escaping. -/
theorem scanVal_clean_backslash {l : List Char}
    (h : ∀ c ∈ l, c ≠ '"' ∧ c ≠ '\\') :
    scanVal false (l ++ ['\\']) = ⟨l ++ ['\\'], true, none⟩ := by
  induction l with
  | nil => simp [scanVal]
  | cons c rest ih =>
    have hc := h c (List.mem_cons_self ..)
    have ih' := ih (fun d hd => h d (List.mem_cons_of_mem _ hd))
    simp [scanVal, hc.1, hc.2, ih']

/-- An escaped character is consumed literally. -/
theorem scanVal_esc_cons (c : Char) (l : List Char) :
    scanVal true (c :: l) =
      ⟨c :: (scanVal false l).out, (scanVal false l).esc, (scanVal false l).rest⟩ := by
  simp [scanVal]

/-- On a backslash-free body, `json.loads` either succeeds returning the
body verbatim or fails. -/
theorem decodeJsonChars_no_backslash {l : List Char} (h : ∀ c ∈ l, c ≠ '\\') :
    decodeJsonChars l = some l ∨ decodeJsonChars l = none := by
  induction l with
  | nil => exact Or.inl rfl
  | cons c rest ih =>
    have hc : c ≠ '\\' := h c (List.mem_cons_self ..)
    by_cases hq : c = '"' ∨ c.toNat < 0x20
    · right
      simp [decodeJsonChars, hc, hq]
    · rcases ih (fun d hd => h d (List.mem_cons_of_mem _ hd)) with h1 | h1
      · left
        simp [decodeJsonChars, hc, hq, h1]
      · right
        simp [decodeJsonChars, hc, hq, h1]

/-- On a backslash-free raw value, decode-or-fall-back is the identity. -/
theorem decodeOrRaw_no_backslash {l : List Char} (h : ∀ c ∈ l, c ≠ '\\') :
    decodeOrRaw l = l := by
  rcases decodeJsonChars_no_backslash h with h1 | h1 <;> simp [decodeOrRaw, h1]

/-- A raw value starting with an unescaped quote fails to decode and falls
back to the raw text. -/
theorem decodeOrRaw_quote_head (l : List Char) :
    decodeOrRaw ('"' :: l) = '"' :: l := by
  simp [decodeOrRaw, decodeJsonChars]

/-- The anchored colon-quote match on `: "` consumes exactly three
characters. -/
theorem matchColonQuoteAt_head (rest : List Char) :
    matchColonQuoteAt (':' :: ' ' :: '"' :: rest) = some 3 := by
  simp [matchColonQuoteAt, pyWs, List.dropWhile]

/-- The colon-quote search on a buffer beginning with `: "` ends at
position 3. -/
theorem findColonQuote_head (rest : List Char) :
    findColonQuote (':' :: ' ' :: '"' :: rest) = some 3 := by
  simp [findColonQuote, matchColonQuoteAt_head]

/-- A prefix of an append that fits inside the left part is a prefix of the
left part. -/
theorem prefix_of_append_of_length_le {p a b : List Char}
    (h : p <+: a ++ b) (hl : p.length ≤ a.length) : p <+: a := by
  rw [List.prefix_iff_eq_take] at h
  rw [List.take_append_of_le_length hl] at h
  exact h ▸ List.take_prefix _ _

/-- The key does not occur in the document strictly before its designated
position. -/
theorem no_key_in_doc (pre v post : List Char)
    (hocc : ∀ i < pre.length, ¬ situationKey <+: ((pre ++ situationKey).drop i))
    {j : Nat} (hj : j < pre.length) :
    ¬ situationKey <+: ((sitDoc pre v post).drop j) := by
  intro hk
  apply hocc j hj
  have hassoc : sitDoc pre v post =
      (pre ++ situationKey) ++ (sepCQ ++ v ++ '"' :: post) := by
    simp [sitDoc]
  have hle : j ≤ (pre ++ situationKey).length := by
    simp only [List.length_append]
    omega
  rw [hassoc, List.drop_append_of_le_length hle] at hk
  refine prefix_of_append_of_length_le hk ?_
  simp only [List.length_drop, List.length_append, situationKey_length]
  omega

/-- Nor does the key occur before its position inside any taken-prefix of
the document. -/
theorem no_key_in_take_drop (pre v post : List Char)
    (hocc : ∀ i < pre.length, ¬ situationKey <+: ((pre ++ situationKey).drop i))
    {k' j : Nat} (hj : j < pre.length) :
    ¬ situationKey <+: (((sitDoc pre v post).take k').drop j) := by
  intro hpref
  rw [List.drop_take] at hpref
  exact no_key_in_doc pre v post hocc hj (hpref.trans (List.take_prefix _ _))

/-- Keeping the last `K` characters of a consumed-prefix suffix keeps
exactly the last `K` characters of the longer consumed prefix. -/
theorem lastN_drop_take {D : List Char} {K k k' : Nat}
    (hk : k ≤ k') (hk' : k' ≤ D.length) :
    lastN K ((D.take k').drop (k - K)) = (D.take k').drop (k' - K) := by
  have hlen : ((D.take k').drop (k - K)).length = k' - (k - K) := by
    simp only [List.length_drop, List.length_take]
    omega
  rw [lastN, hlen, List.drop_drop]
  congr 1
  omega

/-- Dropping the prefix-plus-key part of the document leaves `: "` followed
by the value, closing quote and suffix. -/
theorem sitDoc_drop_keyEnd (pre v post : List Char) :
    (sitDoc pre v post).drop (keyEnd pre) = ':' :: ' ' :: '"' :: (v ++ '"' :: post) := by
  have hassoc : sitDoc pre v post =
      (pre ++ situationKey) ++ (sepCQ ++ (v ++ '"' :: post)) := by
    simp [sitDoc]
  have hl : (pre ++ situationKey).length = keyEnd pre := by
    simp [keyEnd, List.length_append]
  rw [hassoc, ← hl, List.drop_left]
  rfl

/-- Dropping the prefix leaves the key followed by the rest. -/
theorem sitDoc_drop_pre (pre v post : List Char) :
    (sitDoc pre v post).drop pre.length =
      situationKey ++ (sepCQ ++ (v ++ '"' :: post)) := by
  have hassoc : sitDoc pre v post =
      pre ++ (situationKey ++ (sepCQ ++ (v ++ '"' :: post))) := by
    simp [sitDoc]
  rw [hassoc, List.drop_left]

/-- Flushing `out` as a delta only when non-empty still concatenates to
`out`. -/
theorem flatten_snoc_if (ds : List (List Char)) (o : List Char) :
    (if o.isEmpty then ds else ds ++ [o]).flatten = ds.flatten ++ o := by
  cases o <;> simp

/-- `processChunk` in pass-through mode (field already extracted). -/
theorem processChunk_done {s : ExtState} (h : s.doneSituation = true)
    (t : List Char) :
    processChunk s t = { s with jsonOutput := s.jsonOutput ++ t } := by
  simp [processChunk, h]

/-- `processChunk` while inside the value. -/
theorem processChunk_insitu {s : ExtState} (hd : s.doneSituation = false)
    (hs : s.inSituation = true) (t : List Char) :
    processChunk s t =
      scanStep ({ s with jsonOutput := s.jsonOutput ++ t, buf := s.buf ++ t }) := by
  simp [processChunk, hd, hs]

/-- `processChunk` while searching, key not found: keep the buffer tail. -/
theorem processChunk_search_none {s : ExtState} (hd : s.doneSituation = false)
    (hs : s.inSituation = false) (t : List Char)
    (hn : firstOcc situationKey (s.buf ++ t) = none) :
    processChunk s t =
      { s with
        jsonOutput := s.jsonOutput ++ t
        buf := lastN situationKey.length (s.buf ++ t) } := by
  simp [processChunk, hd, hs, hn]

/-- `processChunk` while searching, key and colon-quote both found: enter
the value and scan. -/
theorem processChunk_search_found {s : ExtState} (hd : s.doneSituation = false)
    (hs : s.inSituation = false) (t : List Char) {idx e : Nat}
    (hn : firstOcc situationKey (s.buf ++ t) = some idx)
    (hcq : findColonQuote ((s.buf ++ t).drop (idx + situationKey.length)) = some e) :
    processChunk s t =
      scanStep ({ s with
                  jsonOutput := s.jsonOutput ++ t
                  buf := ((s.buf ++ t).drop (idx + situationKey.length)).drop e
                  inSituation := true }) := by
  simp [processChunk, hd, hs, hn, hcq]

/-- `scanStep` when the scanner does not reach a closing quote: flush. -/
theorem scanStep_flush {s : ExtState} {o : List Char} {e2 : Bool}
    (h : scanVal s.escaping s.buf = ⟨o, e2, none⟩) :
    scanStep s =
      { s with
        buf := []
        escaping := e2
        deltas := if o.isEmpty then s.deltas else s.deltas ++ [o] } := by
  simp [scanStep, h]

/-- `scanStep` when the scanner reaches the closing quote: emit the decoded
tail and stop. -/
theorem scanStep_close {s : ExtState} {o : List Char} {e2 : Bool}
    {tail : List Char} (h : scanVal s.escaping s.buf = ⟨o, e2, some tail⟩) :
    scanStep s =
      { s with
        buf := tail
        escaping := e2
        doneSituation := true
        deltas := s.deltas ++ [decodeOrRaw o] } := by
  simp [scanStep, h]

/-- Appending the next chunk to the rolling buffer yields a suffix of the
consumed document prefix. -/
theorem buf_append_chunk {pre v post : List Char} {k k' : Nat} {s : ExtState}
    {t : List Char} (hk : k ≤ k') (hkd : k' ≤ (sitDoc pre v post).length)
    (ht : (sitDoc pre v post).take k ++ t = (sitDoc pre v post).take k')
    (hbuf : s.buf = ((sitDoc pre v post).take k).drop (k - situationKey.length)) :
    s.buf ++ t =
      ((sitDoc pre v post).take k').drop (k - situationKey.length) := by
  have hsub : k - situationKey.length ≤ ((sitDoc pre v post).take k).length := by
    have hkd0 : k ≤ (sitDoc pre v post).length := le_trans hk hkd
    simp only [List.length_take]
    omega
  rw [hbuf, ← ht, List.drop_append_of_le_length hsub]

/-- Phase-A step: while the whole key has not yet been consumed, the chunk
leaves the extractor searching with the rolling buffer updated. -/
theorem extStep_searchA (pre v post : List Char) {k k' : Nat} {s : ExtState}
    {t : List Char}
    (hocc : ∀ i < pre.length, ¬ situationKey <+: ((pre ++ situationKey).drop i))
    (hk : k ≤ k') (hke : k' < keyEnd pre)
    (hkd : k' ≤ (sitDoc pre v post).length)
    (ht : (sitDoc pre v post).take k ++ t = (sitDoc pre v post).take k')
    (hjson : s.jsonOutput = (sitDoc pre v post).take k)
    (hbuf : s.buf = ((sitDoc pre v post).take k).drop (k - situationKey.length))
    (hsit : s.inSituation = false) (hdone : s.doneSituation = false) :
    processChunk s t =
      { s with
        jsonOutput := (sitDoc pre v post).take k'
        buf := ((sitDoc pre v post).take k').drop (k' - situationKey.length) } := by
  have hbt := buf_append_chunk hk hkd ht hbuf
  have hnone : firstOcc situationKey (s.buf ++ t) = none := by
    apply firstOcc_eq_none_of
    intro i hpref
    rw [hbt, List.drop_drop] at hpref
    have hlen := hpref.length_le
    rw [List.length_drop, List.length_take, Nat.min_eq_left hkd] at hlen
    have hj : k - situationKey.length + i < pre.length := by
      have hKE : keyEnd pre = pre.length + situationKey.length := rfl
      have hK19 : situationKey.length = 19 := rfl
      omega
    exact no_key_in_take_drop pre v post hocc hj hpref
  rw [processChunk_search_none hdone hsit t hnone]
  have e1 : s.jsonOutput ++ t = (sitDoc pre v post).take k' := by rw [hjson, ht]
  have e2 : lastN situationKey.length (s.buf ++ t) =
      ((sitDoc pre v post).take k').drop (k' - situationKey.length) := by
    rw [hbt]
    exact lastN_drop_take hk hkd
  rw [e1, e2]

/-- Chunk suffix arithmetic: dropping `n ≤ k` characters commutes with
appending the next chunk. -/
theorem chunk_suffix {D : List Char} {k k' : Nat} {t : List Char}
    (hk : k ≤ k') (hkd : k' ≤ D.length)
    (ht : D.take k ++ t = D.take k') (n : Nat) (hn : n ≤ k) :
    (D.take k).drop n ++ t = (D.take k').drop n := by
  have hsub : n ≤ (D.take k).length := by
    have : k ≤ D.length := le_trans hk hkd
    simp only [List.length_take]
    omega
  rw [← ht, List.drop_append_of_le_length hsub]

/-- Taking `m + 3` characters off three conses. -/
theorem take_add_three (a b c : Char) (X : List Char) (m : Nat) :
    (a :: b :: c :: X).take (m + 3) = a :: b :: c :: X.take m := by
  have h1 : m + 3 = (m + 2) + 1 := by omega
  have h2 : m + 2 = (m + 1) + 1 := by omega
  rw [h1, List.take_succ_cons, h2, List.take_succ_cons, List.take_succ_cons]

/-- `processChunk` on an explicit pass-through state. -/
theorem processChunk_done' (J B : List Char) (sit esc : Bool)
    (ds : List (List Char)) (t : List Char) :
    processChunk ⟨J, B, sit, esc, true, ds⟩ t = ⟨J ++ t, B, sit, esc, true, ds⟩ := by
  simp [processChunk]

/-- `processChunk` on an explicit in-value state. -/
theorem processChunk_insitu' (J B : List Char) (esc : Bool)
    (ds : List (List Char)) (t : List Char) :
    processChunk ⟨J, B, true, esc, false, ds⟩ t =
      scanStep ⟨J ++ t, B ++ t, true, esc, false, ds⟩ := by
  simp [processChunk, scanStep]

/-- `processChunk` on an explicit searching state, key and colon-quote
found. -/
theorem processChunk_search_found' (J B : List Char) (esc : Bool)
    (ds : List (List Char)) (t : List Char) {idx e : Nat}
    (hn : firstOcc situationKey (B ++ t) = some idx)
    (hcq : findColonQuote ((B ++ t).drop (idx + situationKey.length)) = some e) :
    processChunk ⟨J, B, false, esc, false, ds⟩ t =
      scanStep ⟨J ++ t, ((B ++ t).drop (idx + situationKey.length)).drop e,
        true, esc, false, ds⟩ := by
  simp [processChunk, scanStep, hn, hcq]

/-- `scanStep` on an explicit state, scanner not reaching a quote. -/
theorem scanStep_flush' (J B : List Char) (esc : Bool) (ds : List (List Char))
    {o : List Char} {e2 : Bool} (h : scanVal esc B = ⟨o, e2, none⟩) :
    scanStep ⟨J, B, true, esc, false, ds⟩ =
      ⟨J, [], true, e2, false, if o.isEmpty then ds else ds ++ [o]⟩ := by
  simp [scanStep, h]

/-- `scanStep` on an explicit state, scanner reaching the closing quote. -/
theorem scanStep_close' (J B : List Char) (esc : Bool) (ds : List (List Char))
    {o : List Char} {e2 : Bool} {tail : List Char}
    (h : scanVal esc B = ⟨o, e2, some tail⟩) :
    scanStep ⟨J, B, true, esc, false, ds⟩ =
      ⟨J, tail, true, e2, true, ds ++ [decodeOrRaw o]⟩ := by
  simp [scanStep, h]

/-- Transition step: the chunk that completes the key also contains the
opening quote (by the cut condition), so the extractor enters the value and
emits the consumed part of it (decoding only if the value closes in the same
chunk). -/
theorem extStep_enterValue (pre v post : List Char) {k k' : Nat} {t : List Char}
    (hocc : ∀ i < pre.length, ¬ situationKey <+: ((pre ++ situationKey).drop i))
    (hv : ∀ c ∈ v, c ≠ '"' ∧ c ≠ '\\')
    (hk : k ≤ k') (hkA : k < keyEnd pre) (hkq : valStart pre ≤ k')
    (hkd : k' ≤ (sitDoc pre v post).length)
    (ht : (sitDoc pre v post).take k ++ t = (sitDoc pre v post).take k') :
    ExtInv pre v post k'
      (processChunk
        ⟨(sitDoc pre v post).take k,
         ((sitDoc pre v post).take k).drop (k - situationKey.length),
         false, false, false, []⟩ t) := by
  have hbt : ((sitDoc pre v post).take k).drop (k - situationKey.length) ++ t =
      ((sitDoc pre v post).take k').drop (k - situationKey.length) :=
    chunk_suffix hk hkd ht _ (Nat.sub_le _ _)
  have hfind : firstOcc situationKey
      (((sitDoc pre v post).take k).drop (k - situationKey.length) ++ t) =
      some (pre.length - (k - situationKey.length)) := by
    apply firstOcc_eq_some_of situationKey_ne_nil
    · rw [hbt, List.drop_drop]
      have hPk : k - situationKey.length +
          (pre.length - (k - situationKey.length)) = pre.length := by
        have hKE : keyEnd pre = pre.length + situationKey.length := rfl
        omega
      rw [hPk, List.drop_take, sitDoc_drop_pre]
      have h2 : situationKey.length ≤ k' - pre.length := by
        have hKE : keyEnd pre = pre.length + situationKey.length := rfl
        have hVS : valStart pre = keyEnd pre + 3 := rfl
        omega
      rw [List.take_append_eq_append_take, List.take_of_length_le h2]
      exact List.prefix_append _ _
    · intro j hj hpref
      rw [hbt, List.drop_drop] at hpref
      have hjP : k - situationKey.length + j < pre.length := by
        have hKE : keyEnd pre = pre.length + situationKey.length := rfl
        omega
      exact no_key_in_take_drop pre v post hocc hjP hpref
  have hbuf1 : ((((sitDoc pre v post).take k).drop (k - situationKey.length) ++ t).drop
      (pre.length - (k - situationKey.length) + situationKey.length)) =
      ((sitDoc pre v post).take k').drop (keyEnd pre) := by
    rw [hbt, List.drop_drop]
    congr 1
    have hKE : keyEnd pre = pre.length + situationKey.length := rfl
    omega
  have hdropE : ((sitDoc pre v post).take k').drop (keyEnd pre) =
      ':' :: ' ' :: '"' :: ((v ++ '"' :: post).take (k' - valStart pre)) := by
    rw [List.drop_take, sitDoc_drop_keyEnd]
    obtain ⟨m, hm⟩ : ∃ m, k' - keyEnd pre = m + 3 := by
      refine ⟨k' - valStart pre, ?_⟩
      have hVS : valStart pre = keyEnd pre + 3 := rfl
      omega
    rw [hm, take_add_three]
    have hm' : k' - valStart pre = m := by
      have hVS : valStart pre = keyEnd pre + 3 := rfl
      omega
    rw [hm']
  have hcq : findColonQuote ((((sitDoc pre v post).take k).drop (k - situationKey.length) ++ t).drop
      (pre.length - (k - situationKey.length) + situationKey.length)) = some 3 := by
    rw [hbuf1, hdropE]
    exact findColonQuote_head _
  rw [processChunk_search_found' _ _ _ _ t hfind hcq]
  have hbuf2 : ((((sitDoc pre v post).take k).drop (k - situationKey.length) ++ t).drop
      (pre.length - (k - situationKey.length) + situationKey.length)).drop 3 =
      (v ++ '"' :: post).take (k' - valStart pre) := by
    rw [hbuf1, hdropE]
    rfl
  rw [hbuf2, ht]
  by_cases hcase : k' ≤ valEnd pre v
  · have hsub : k' - valStart pre ≤ v.length := by
      have hVE : valEnd pre v = valStart pre + v.length := rfl
      omega
    rw [List.take_append_of_le_length hsub]
    have hscan : scanVal false (v.take (k' - valStart pre)) =
        ⟨v.take (k' - valStart pre), false, none⟩ :=
      scanVal_clean (fun c hc => hv c (List.mem_of_mem_take hc))
    rw [scanStep_flush' _ _ _ _ hscan]
    refine ⟨rfl, Or.inr (Or.inl ⟨hkq, hcase, rfl, rfl, rfl, rfl, ?_⟩)⟩
    rw [flatten_snoc_if]
    simp
  · have hgt : v.length ≤ k' - valStart pre := by
      have hVE : valEnd pre v = valStart pre + v.length := rfl
      omega
    have hsplit : (v ++ '"' :: post).take (k' - valStart pre) =
        v ++ '"' :: post.take (k' - valEnd pre v - 1) := by
      rw [List.take_append_eq_append_take, List.take_of_length_le hgt]
      congr 1
      obtain ⟨m, hm⟩ : ∃ m, k' - valStart pre - v.length = m + 1 :=
        ⟨k' - valStart pre - v.length - 1, by
          have hVE : valEnd pre v = valStart pre + v.length := rfl
          omega⟩
      rw [hm, List.take_succ_cons]
      have hm2 : m = k' - valEnd pre v - 1 := by
        have hVE : valEnd pre v = valStart pre + v.length := rfl
        omega
      rw [hm2]
    rw [hsplit]
    have hscan : scanVal false (v ++ '"' :: post.take (k' - valEnd pre v - 1)) =
        ⟨v, false, some (post.take (k' - valEnd pre v - 1))⟩ :=
      scanVal_clean_quote hv _
    rw [scanStep_close' _ _ _ _ hscan]
    refine ⟨rfl, Or.inr (Or.inr ⟨by omega, rfl, ?_⟩)⟩
    rw [decodeOrRaw_no_backslash (fun c hc => (hv c hc).2)]
    simp

/-- In-value step: the chunk is a slice of the value (and possibly its
closing quote and suffix); its raw characters are flushed, and if the
closing quote arrives, the decoded tail is emitted and extraction stops. -/
theorem extStep_value (pre v post : List Char) {k k' : Nat} {t : List Char}
    {ds : List (List Char)}
    (hv : ∀ c ∈ v, c ≠ '"' ∧ c ≠ '\\')
    (hk : k ≤ k') (hkq : valStart pre ≤ k) (hkc : k ≤ valEnd pre v)
    (hkd : k' ≤ (sitDoc pre v post).length)
    (ht : (sitDoc pre v post).take k ++ t = (sitDoc pre v post).take k')
    (hds : ds.flatten = v.take (k - valStart pre)) :
    ExtInv pre v post k'
      (processChunk ⟨(sitDoc pre v post).take k, [], true, false, false, ds⟩ t) := by
  have hkk : k ≤ (sitDoc pre v post).length := le_trans hk hkd
  have ht' : t = ((sitDoc pre v post).drop k).take (k' - k) := by
    have h1 := congrArg (List.drop k) ht
    rw [List.drop_append_of_le_length (by simp only [List.length_take]; omega)] at h1
    have h2 : ((sitDoc pre v post).take k).drop k = [] :=
      List.drop_eq_nil_of_le (by simp only [List.length_take]; omega)
    rw [h2, List.nil_append, List.drop_take] at h1
    exact h1
  have hlenPre : (pre ++ situationKey ++ sepCQ).length = valStart pre := by
    simp [valStart, keyEnd, sepCQ, situationKey_length, List.length_append]
  have hdk : (sitDoc pre v post).drop k =
      v.drop (k - valStart pre) ++ '"' :: post := by
    have hassoc : sitDoc pre v post =
        (pre ++ situationKey ++ sepCQ) ++ (v ++ '"' :: post) := by
      simp [sitDoc]
    rw [hassoc, List.drop_append_eq_append_drop, hlenPre]
    rw [List.drop_eq_nil_of_le (by rw [hlenPre]; exact hkq), List.nil_append]
    rw [List.drop_append_eq_append_drop]
    have h0 : k - valStart pre - v.length = 0 := by
      have hVE : valEnd pre v = valStart pre + v.length := rfl
      omega
    rw [h0, List.drop_zero]
  by_cases hcase : k' ≤ valEnd pre v
  · have hsub : k' - k ≤ (v.drop (k - valStart pre)).length := by
      simp only [List.length_drop]
      have hVE : valEnd pre v = valStart pre + v.length := rfl
      omega
    have htake : t = (v.drop (k - valStart pre)).take (k' - k) := by
      rw [ht', hdk, List.take_append_of_le_length hsub]
    have hscan : scanVal false t = ⟨t, false, none⟩ := by
      rw [htake]
      exact scanVal_clean
        (fun c hc => hv c (List.mem_of_mem_drop (List.mem_of_mem_take hc)))
    rw [processChunk_insitu', List.nil_append, ht]
    rw [scanStep_flush' _ _ _ _ hscan]
    refine ⟨rfl, Or.inr (Or.inl ⟨le_trans hkq hk, hcase, rfl, rfl, rfl, rfl, ?_⟩)⟩
    rw [flatten_snoc_if, hds, htake, ← List.take_add]
    congr 1
    omega
  · have hsplit : t = v.drop (k - valStart pre) ++
        '"' :: post.take (k' - valEnd pre v - 1) := by
      rw [ht', hdk, List.take_append_eq_append_take]
      rw [List.take_of_length_le (by
        simp only [List.length_drop]
        have hVE : valEnd pre v = valStart pre + v.length := rfl
        omega)]
      congr 1
      have hidx : k' - k - (v.drop (k - valStart pre)).length =
          (k' - valEnd pre v - 1) + 1 := by
        simp only [List.length_drop]
        have hVE : valEnd pre v = valStart pre + v.length := rfl
        omega
      rw [hidx, List.take_succ_cons]
    have hscan : scanVal false t =
        ⟨v.drop (k - valStart pre), false,
          some (post.take (k' - valEnd pre v - 1))⟩ := by
      rw [hsplit]
      exact scanVal_clean_quote (fun c hc => hv c (List.mem_of_mem_drop hc)) _
    rw [processChunk_insitu', List.nil_append, ht]
    rw [scanStep_close' _ _ _ _ hscan]
    refine ⟨rfl, Or.inr (Or.inr ⟨by omega, rfl, ?_⟩)⟩
    rw [decodeOrRaw_no_backslash (fun c hc => (hv c (List.mem_of_mem_drop hc)).2)]
    simp only [List.flatten_append, List.flatten_cons, List.flatten_nil, List.append_nil, hds]
    exact List.take_append_drop _ _

/-- Induction over the fragment sequence: the simulation invariant is
carried from consumed position `k` to the end of the document. -/
theorem feedExt_inv (pre v post : List Char)
    (hocc : ∀ i < pre.length, ¬ situationKey <+: ((pre ++ situationKey).drop i))
    (hv : ∀ c ∈ v, c ≠ '"' ∧ c ≠ '\\') :
    ∀ (chunks : List (List Char)) (k : Nat) (s : ExtState),
      chunks.flatten = (sitDoc pre v post).drop k →
      k ≤ (sitDoc pre v post).length →
      cutsOKb pre.length k chunks = true →
      ExtInv pre v post k s →
      ExtInv pre v post (sitDoc pre v post).length (feedExt s chunks) := by
  intro chunks
  induction chunks with
  | nil =>
    intro k s hfl hkd _ hinv
    have hnil : (sitDoc pre v post).drop k = [] := by simpa using hfl.symm
    have hlen := List.drop_eq_nil_iff.mp hnil
    have hk : k = (sitDoc pre v post).length := by omega
    subst hk
    simpa [feedExt] using hinv
  | cons t rest ih =>
    intro k s hfl hkd hcut hinv
    simp only [cutsOKb, Bool.and_eq_true, Bool.or_eq_true, decide_eq_true_eq] at hcut
    have hfl' : t ++ rest.flatten = (sitDoc pre v post).drop k := by simpa using hfl
    have hlt : t.length ≤ (sitDoc pre v post).length - k := by
      have hql := congrArg List.length hfl'
      simp only [List.length_append, List.length_drop] at hql
      omega
    have hk' : k + t.length ≤ (sitDoc pre v post).length := by omega
    have ht : (sitDoc pre v post).take k ++ t =
        (sitDoc pre v post).take (k + t.length) := by
      rw [List.take_add]
      congr 1
      rw [← hfl', List.take_left]
    have hfrest : rest.flatten = (sitDoc pre v post).drop (k + t.length) := by
      have h1 : ((sitDoc pre v post).drop k).drop t.length =
          (sitDoc pre v post).drop (k + t.length) := by
        rw [List.drop_drop]
      rw [← h1, ← hfl', List.drop_left]
    have hcutd := hcut.1
    obtain ⟨sj, sb, ssit, sesc, sdn, sds⟩ := s
    obtain ⟨hjson, hbr⟩ := hinv
    dsimp only at hjson
    subst hjson
    have hstep : ExtInv pre v post (k + t.length)
        (processChunk ⟨(sitDoc pre v post).take k, sb, ssit, sesc, sdn, sds⟩ t) := by
      rcases hbr with ⟨hkA, hbuf, hsit, hesc, hdone, hdel⟩ |
        ⟨hq1, hq2, hbuf, hsit, hesc, hdone, hds⟩ | ⟨hc1, hdone, hds⟩
      · dsimp only at hbuf hsit hesc hdone hdel
        subst hbuf; subst hsit; subst hesc; subst hdone; subst hdel
        rcases hcutd with hlt2 | hge
        · have hke : k + t.length < keyEnd pre := by
            have hKE : keyEnd pre = pre.length + situationKey.length := rfl
            omega
          rw [extStep_searchA pre v post hocc (Nat.le_add_right _ _) hke hk' ht
            rfl rfl rfl rfl]
          exact ⟨rfl, Or.inl ⟨hke, rfl, rfl, rfl, rfl, rfl⟩⟩
        · have hkq : valStart pre ≤ k + t.length := by
            have hKE : keyEnd pre = pre.length + situationKey.length := rfl
            have hVS : valStart pre = keyEnd pre + 3 := rfl
            omega
          exact extStep_enterValue pre v post hocc hv (Nat.le_add_right _ _)
            hkA hkq hk' ht
      · dsimp only at hbuf hsit hesc hdone hds
        subst hbuf; subst hsit; subst hesc; subst hdone
        exact extStep_value pre v post hv (Nat.le_add_right _ _) hq1 hq2 hk' ht hds
      · dsimp only at hdone hds
        subst hdone
        rw [processChunk_done', ht]
        exact ⟨rfl, Or.inr (Or.inr ⟨by omega, rfl, hds⟩)⟩
    have hres := ih (k + t.length) _ hfrest hk' hcut.2 hstep
    simpa [feedExt] using hres

/-- C1 counterexample: the claim fails on the code in two ways, shown at
explicit inputs.  (a) For the complete JSON text
`{"current_situation": "A\nB"}`, delivering it as one fragment yields the
decoded value `A⏎B` (with a real newline), while splitting it right after
the backslash yields the four raw characters `A\nB` — the concatenation of
deltas depends on the splitting and differs from the JSON-decoded value.
(b) For `{"current_situation": "AB"}`, splitting between the key and the
colon yields no deltas at all, although the field is present. -/
theorem c1_fragmentation_counterexample :
    situationOut (feedExt initExt
      ["\x7b\"current_situation\": \"A\\nB\"\x7d".data]) = "A\nB".data ∧
    situationOut (feedExt initExt
      ["\x7b\"current_situation\": \"A\\".data, "nB\"\x7d".data]) = "A\\nB".data ∧
    "A\nB".data ≠ "A\\nB".data ∧
    situationOut (feedExt initExt
      ["\x7b\"current_situation\"".data, ": \"AB\"\x7d".data]) = [] ∧
    situationOut (feedExt initExt
      ["\x7b\"current_situation\": \"AB\"\x7d".data]) = "AB".data := by
  refine ⟨by decide, by decide, by decide, by decide, by decide⟩

/-- C1 amended: for every complete JSON response text of the form
`pre + "current_situation" + ": \"" + value + "\"" + post` in which the key
occurs nowhere earlier and the value contains no backslash and no quote,
and for every splitting into fragments in which no fragment boundary falls
strictly between the end of the key and the end of the opening quote, the
concatenation of emitted situation deltas equals the value (hence is the
same for all such splittings and equals the JSON-decoded field value), and
the accumulated raw text equals the full input. -/
theorem c1_fragmentation_amended (pre v post : List Char)
    (chunks : List (List Char))
    (hdoc : chunks.flatten = sitDoc pre v post)
    (hocc : ∀ i < pre.length, ¬ situationKey <+: ((pre ++ situationKey).drop i))
    (hv : ∀ c ∈ v, c ≠ '"' ∧ c ≠ '\\')
    (hcuts : cutsOKb pre.length 0 chunks = true) :
    situationOut (feedExt initExt chunks) = v ∧
    (feedExt initExt chunks).jsonOutput = sitDoc pre v post := by
  have hinv0 : ExtInv pre v post 0 initExt := by
    refine ⟨by simp [initExt], Or.inl ⟨?_, by simp [initExt], rfl, rfl, rfl, rfl⟩⟩
    have hKE : keyEnd pre = pre.length + situationKey.length := rfl
    have hK19 : situationKey.length = 19 := rfl
    omega
  have hfin := feedExt_inv pre v post hocc hv chunks 0 initExt
    (by simpa using hdoc) (Nat.zero_le _) hcuts hinv0
  obtain ⟨hjson, hbr⟩ := hfin
  have hlen : valEnd pre v < (sitDoc pre v post).length := by
    have hL : (sitDoc pre v post).length =
        pre.length + situationKey.length + 3 + v.length + (1 + post.length) := by
      simp [sitDoc, sepCQ, List.length_append]
      omega
    have hKE : keyEnd pre = pre.length + situationKey.length := rfl
    have hVS : valStart pre = keyEnd pre + 3 := rfl
    have hVE : valEnd pre v = valStart pre + v.length := rfl
    omega
  rcases hbr with ⟨hA, _⟩ | ⟨_, hB, _⟩ | ⟨_, _, hflat⟩
  · exfalso
    have hKE : keyEnd pre = pre.length + situationKey.length := rfl
    have hVS : valStart pre = keyEnd pre + 3 := rfl
    have hVE : valEnd pre v = valStart pre + v.length := rfl
    omega
  · exact absurd hB (by omega)
  · refine ⟨hflat, ?_⟩
    rw [hjson, List.take_length]

/-- Witness for `c1_fragmentation_amended`: the document
`{"current_situation": "Hi"}` split into three fragments (one cutting the
key in half, one cutting the value) streams the deltas `H`·`i` and
accumulates the full text. -/
theorem c1_fragmentation_amended_witness :
    situationOut (feedExt initExt
      ["\x7b\"current_sit".data, "uation\": \"H".data, "i\"\x7d".data]) = "Hi".data ∧
    (feedExt initExt
      ["\x7b\"current_sit".data, "uation\": \"H".data, "i\"\x7d".data]).jsonOutput =
      sitDoc "\x7b".data "Hi".data "\x7d".data :=
  c1_fragmentation_amended "\x7b".data "Hi".data "\x7d".data
    ["\x7b\"current_sit".data, "uation\": \"H".data, "i\"\x7d".data]
    (by decide) (by decide) (by decide) (by decide)

/-- C8: a chunk sequence splitting an escaped quote `\"` exactly between
the backslash and the quote: from any in-value extractor state with an
empty working buffer, a first chunk `a ++ "\"` (with `a` free of quotes and
backslashes) leaves the escaping flag set across the fragment boundary and
the value open; the following chunk starting with the quote does not treat
that quote as the terminator — it lands inside the emitted value — and
extraction continues until the later unescaped quote, which ends the value
and leaves the rest of the chunk in the buffer. -/
theorem c8_escaped_quote_split (s : ExtState) (a b r : List Char)
    (hs1 : s.inSituation = true) (hs2 : s.doneSituation = false)
    (hs3 : s.escaping = false) (hs4 : s.buf = [])
    (ha : ∀ c ∈ a, c ≠ '"' ∧ c ≠ '\\') (hb : ∀ c ∈ b, c ≠ '"' ∧ c ≠ '\\') :
    (processChunk s (a ++ ['\\'])).escaping = true ∧
    (processChunk s (a ++ ['\\'])).doneSituation = false ∧
    (processChunk s (a ++ ['\\'])).deltas = s.deltas ++ [a ++ ['\\']] ∧
    (processChunk (processChunk s (a ++ ['\\'])) ('"' :: b ++ '"' :: r)).doneSituation
      = true ∧
    (processChunk (processChunk s (a ++ ['\\'])) ('"' :: b ++ '"' :: r)).buf = r ∧
    (processChunk (processChunk s (a ++ ['\\'])) ('"' :: b ++ '"' :: r)).deltas =
      s.deltas ++ [a ++ ['\\']] ++ ['"' :: b] := by
  obtain ⟨sj, sb, ssit, sesc, sdn, sds⟩ := s
  dsimp only at hs1 hs2 hs3 hs4
  subst hs1; subst hs2; subst hs3; subst hs4
  have hscan1 : scanVal false ([] ++ (a ++ ['\\'])) = ⟨a ++ ['\\'], true, none⟩ := by
    rw [List.nil_append]
    exact scanVal_clean_backslash ha
  have hne : (a ++ ['\\']).isEmpty = false := by
    cases a <;> rfl
  have h1 : processChunk ⟨sj, [], true, false, false, sds⟩ (a ++ ['\\']) =
      ⟨sj ++ (a ++ ['\\']), [], true, true, false, sds ++ [a ++ ['\\']]⟩ := by
    rw [processChunk_insitu', List.nil_append]
    have := scanStep_flush' (sj ++ (a ++ ['\\'])) (a ++ ['\\']) false sds
      (scanVal_clean_backslash ha)
    rw [this, hne]
    simp
  rw [h1]
  have hscan2 : scanVal true ('"' :: b ++ '"' :: r) = ⟨'"' :: b, false, some r⟩ := by
    have hbq : scanVal false (b ++ '"' :: r) = ⟨b, false, some r⟩ :=
      scanVal_clean_quote hb r
    rw [List.cons_append, scanVal_esc_cons, hbq]
  have h2 : processChunk ⟨sj ++ (a ++ ['\\']), [], true, true, false,
      sds ++ [a ++ ['\\']]⟩ ('"' :: b ++ '"' :: r) =
      ⟨sj ++ (a ++ ['\\']) ++ ('"' :: b ++ '"' :: r), r, true, false, true,
        sds ++ [a ++ ['\\']] ++ [decodeOrRaw ('"' :: b)]⟩ := by
    rw [processChunk_insitu', List.nil_append]
    exact scanStep_close' _ _ _ _ hscan2
  rw [h2, decodeOrRaw_quote_head]
  exact ⟨rfl, rfl, rfl, rfl, rfl, rfl⟩

/-- Witness for `c8_escaped_quote_split`: the state reached after streaming
`{"current_situation": "` followed by the chunks `He\` and `"x"}`. -/
theorem c8_escaped_quote_split_witness :
    (processChunk (processChunk
        (feedExt initExt ["\x7b\"current_situation\": \"".data])
        ("He".data ++ ['\\'])) ('"' :: "x".data ++ '"' :: "\x7d".data)).doneSituation
      = true ∧
    (processChunk (processChunk
        (feedExt initExt ["\x7b\"current_situation\": \"".data])
        ("He".data ++ ['\\'])) ('"' :: "x".data ++ '"' :: "\x7d".data)).deltas =
      (feedExt initExt ["\x7b\"current_situation\": \"".data]).deltas ++
        ["He".data ++ ['\\']] ++ ['"' :: "x".data] := by
  have h := c8_escaped_quote_split
    (feedExt initExt ["\x7b\"current_situation\": \"".data])
    "He".data "x".data "\x7d".data
    (by decide) (by decide) (by decide) (by decide) (by decide) (by decide)
  exact ⟨h.2.2.2.1, h.2.2.2.2.2⟩

end NilsRPG
